import Mathlib

/-!
Shallow embedding of the signal registry of the Emergence repository
(src/emergence_lib/src/signals.rs).  Rust HashMaps are modelled as
association lists over keys with decidable equality, and the f32 payload
of SignalStrength is modelled as a rational number.  External
collaborators (tile positions, identifiers, the geometry service and the
agent Goal type) are modelled from the specification, as noted on each
definition.
-/

namespace Emergence

/-- Modelled from the spec: TilePos (simulation/geometry.rs is not among the
sources) is an opaque grid coordinate used only as a map key, with equality. -/
structure TilePos where
  index : Nat
deriving DecidableEq

/-- Modelled from the spec: ItemId (items.rs is not among the sources) is an
opaque, comparable item identifier. -/
structure ItemId where
  id : Nat
deriving DecidableEq

/-- Modelled from the spec: StructureId (structures.rs is not among the
sources) is an opaque, comparable structure identifier. -/
structure StructureId where
  id : Nat
deriving DecidableEq

/-- SignalType, signals.rs lines 219-231. -/
inductive SignalType where
  | push : ItemId → SignalType
  | pull : ItemId → SignalType
  | contains : ItemId → SignalType
  | work : StructureId → SignalType
deriving DecidableEq

/-- Modelled from the spec: Goal (units/behavior.rs is not among the sources)
is the agent intent consumed by upstream, with the four variants matched on in
signals.rs lines 95-123. -/
inductive Goal where
  | wander : Goal
  | pickup : ItemId → Goal
  | dropOff : ItemId → Goal
  | work : StructureId → Goal
deriving DecidableEq

/-- Modelled from the spec: the geometry service provides neighbor enumeration
for a tile (up to 6 hex neighbors) and the subset of those neighbors that are
currently unoccupied. -/
structure MapGeometry where
  neighbors : TilePos → List TilePos
  empty_neighbors : TilePos → List TilePos

/-- Lookup in an association list, mirroring HashMap::get. -/
def lookupKV {α β : Type} [DecidableEq α] : List (α × β) → α → Option β
  | [], _ => none
  | e :: rest, k => if e.1 = k then some e.2 else lookupKV rest k

/-- Insertion into an association list, mirroring HashMap::insert: the value of
an existing key is replaced, otherwise a new entry is appended. -/
def insertKV {α β : Type} [DecidableEq α] : List (α × β) → α → β → List (α × β)
  | [], k, v => [(k, v)]
  | e :: rest, k, v => if e.1 = k then (k, v) :: rest else e :: insertKV rest k v

/-- The keys of an association list. -/
def keysOf {α β : Type} (l : List (α × β)) : List α := l.map Prod.fst

/-- SignalStrength subtraction, signals.rs lines 275-281: the difference is
clamped to a minimum of zero. -/
def ssub (a b : ℚ) : ℚ := max (a - b) 0

/-- SignalStrength.new, signals.rs lines 256-259: clamps to a minimum of
zero. -/
def snew (v : ℚ) : ℚ := max v 0

/-- SignalMap, signals.rs lines 189-194: the per-type spatial map from tile
position to strength. -/
structure SignalMap where
  entries : List (TilePos × ℚ)

/-- SignalMap::get, signals.rs lines 200-202: missing positions read as
zero. -/
def SignalMap.get (m : SignalMap) (p : TilePos) : ℚ :=
  (lookupKV m.entries p).getD 0

/-- SignalMap::add_signal, signals.rs lines 205-208. -/
def SignalMap.add_signal (m : SignalMap) (p : TilePos) (s : ℚ) : SignalMap :=
  ⟨insertKV m.entries p (m.get p + s)⟩

/-- SignalMap::subtract_signal, signals.rs lines 213-216: the stored value is
the saturating difference. -/
def SignalMap.subtract_signal (m : SignalMap) (p : TilePos) (s : ℚ) : SignalMap :=
  ⟨insertKV m.entries p (ssub (m.get p) s)⟩

/-- Signals, signals.rs lines 33-38: the registry mapping each signal type to
its spatial map. -/
structure Signals where
  maps : List (SignalType × SignalMap)

/-- Signals::get, signals.rs lines 44-49: a missing type map reads as zero. -/
def Signals.get (s : Signals) (t : SignalType) (p : TilePos) : ℚ :=
  match lookupKV s.maps t with
  | some m => m.get p
  | none => 0

/-- Signals::add_signal, signals.rs lines 52-66: lazily creates the type map
when absent. -/
def Signals.add_signal (s : Signals) (t : SignalType) (p : TilePos) (v : ℚ) :
    Signals :=
  match lookupKV s.maps t with
  | some m => ⟨insertKV s.maps t (m.add_signal p v)⟩
  | none => ⟨insertKV s.maps t ((SignalMap.mk []).add_signal p v)⟩

/-- SignalMap::subtract_signal lifted to the registry: the registry itself
exposes no subtraction, diffusion applies it to a map already stored in the
registry (signals.rs line 354); an absent type map is left untouched. -/
def Signals.subtract_signal (s : Signals) (t : SignalType) (p : TilePos)
    (v : ℚ) : Signals :=
  match lookupKV s.maps t with
  | some m => ⟨insertKV s.maps t (m.subtract_signal p v)⟩
  | none => s

/-- LocalSignals, signals.rs lines 155-160. -/
structure LocalSignals where
  map : List (SignalType × ℚ)

/-- Whether a signal type is a Contains variant, as matched in signals.rs
line 168. -/
def SignalType.isContains : SignalType → Bool
  | SignalType.contains _ => true
  | _ => false

/-- LocalSignals::goal_relevant_signals, signals.rs lines 164-171: filters out
every Contains entry. -/
def LocalSignals.goal_relevant_signals (ls : LocalSignals) :
    List (SignalType × ℚ) :=
  ls.map.filter (fun e => ! e.1.isContains)

/-- Signals::all_signals_at_position, signals.rs lines 71-79. -/
def Signals.all_signals_at_position (s : Signals) (p : TilePos) :
    LocalSignals :=
  ⟨s.maps.foldl (fun acc e => insertKV acc e.1 (s.get e.1 p)) []⟩

/-- The emission phase, signals.rs lines 301-307: every emitter adds each of
its signals at its own tile.  The ECS query is modelled as an explicit list of
(tile, signal list) pairs. -/
def emit_signals (s : Signals) (emitters : List (TilePos × List (SignalType × ℚ))) :
    Signals :=
  emitters.foldl
    (fun acc e => e.2.foldl (fun acc2 sig => acc2.add_signal sig.1 e.1 sig.2) acc) s

/-- DIFFUSION_FRACTION, signals.rs line 325. -/
def DIFFUSION_FRACTION : ℚ := 1 / 10

/-- DEGRADATION_FRACTION, signals.rs line 369. -/
def DEGRADATION_FRACTION : ℚ := 1 / 10

/-- The inner staging step of diffusion, signals.rs lines 335-342: for one
source entry, stage a removal from the source and an addition to the neighbor
for every empty neighbor.  The pair is (removal map, addition map). -/
def stageTile (g : MapGeometry) (ms : SignalMap × SignalMap)
    (e : TilePos × ℚ) : SignalMap × SignalMap :=
  (g.empty_neighbors e.1).foldl
    (fun ms2 n =>
      (ms2.1.add_signal e.1 (e.2 * DIFFUSION_FRACTION),
       ms2.2.add_signal n (e.2 * DIFFUSION_FRACTION)))
    ms

/-- The staging pass of diffusion for one signal map, signals.rs lines
331-346: returns (removal map, addition map), both built from the original
strengths only. -/
def stageMaps (g : MapGeometry) (m : SignalMap) : SignalMap × SignalMap :=
  m.entries.foldl (stageTile g) (⟨[]⟩, ⟨[]⟩)

/-- The commit pass of diffusion for one signal map, signals.rs lines 349-360.
The source binds both the addition map and the removal map from
pending_additions (lines 350-351), so the staged removal map (the first
component of the pair) is never applied. -/
def commitMaps (orig : SignalMap) (staged : SignalMap × SignalMap) : SignalMap :=
  let addition_map := staged.2
  let removal_map := staged.2
  let afterRemoval :=
    removal_map.entries.foldl (fun acc e => acc.subtract_signal e.1 e.2) orig
  addition_map.entries.foldl (fun acc e => acc.add_signal e.1 e.2) afterRemoval

/-- diffuse_signals, signals.rs lines 310-361: staging reads every original
map before anything is committed, and the commit for a type uses only that
type's own staged maps, so the pass factors through each registry entry. -/
def diffuse_signals (g : MapGeometry) (s : Signals) : Signals :=
  ⟨s.maps.map (fun e => (e.1, commitMaps e.2 (stageMaps g e.2)))⟩

/-- degrade_signals, signals.rs lines 363-376: every stored strength is scaled
by 1 - DEGRADATION_FRACTION. -/
def degrade_signals (s : Signals) : Signals :=
  ⟨s.maps.map (fun e =>
    (e.1, ⟨e.2.entries.map (fun en => (en.1, en.2 * (1 - DEGRADATION_FRACTION)))⟩))⟩

/-- Signals::neighboring_signals, signals.rs lines 138-152: the strengths of
one signal type at a tile and each of its neighbors, keyed by position.  The
tile itself is inserted first, then every neighbor. -/
def Signals.neighboring_signals (s : Signals) (signal_type : SignalType)
    (tile_pos : TilePos) (g : MapGeometry) : List (TilePos × ℚ) :=
  (g.neighbors tile_pos).foldl
    (fun m n => insertKV m n (s.get signal_type n))
    (insertKV [] tile_pos (s.get signal_type tile_pos))

/-- One step of the merge of contains signals into push signals in the Pickup
branch of upstream, signals.rs lines 107-113. -/
def mergeStep (tot : List (TilePos × ℚ)) (e : TilePos × ℚ) :
    List (TilePos × ℚ) :=
  match lookupKV tot e.1 with
  | some v => insertKV tot e.1 (v + e.2)
  | none => insertKV tot e.1 e.2

/-- The merge loop of the Pickup branch of upstream, signals.rs lines
105-115. -/
def mergeSignals (total extra : List (TilePos × ℚ)) : List (TilePos × ℚ) :=
  extra.foldl mergeStep total

/-- The body of the selection loop of upstream, signals.rs lines 125-132:
a candidate missing from the score map is skipped, otherwise it replaces the
running best exactly when its score is strictly greater. -/
def chooseStep (scores : List (TilePos × ℚ)) (best : Option TilePos × ℚ)
    (t : TilePos) : Option TilePos × ℚ :=
  match lookupKV scores t with
  | some sc => if best.2 < sc then (some t, sc) else best
  | none => best

/-- The selection loop of upstream, signals.rs lines 92-93 and 125-134:
best_choice starts at none and best_score at zero. -/
def chooseBest (tiles : List TilePos) (scores : List (TilePos × ℚ)) :
    Option TilePos :=
  (tiles.foldl (chooseStep scores) ((none : Option TilePos), (0 : ℚ))).1

/-- The goal-dependent score map built by upstream, signals.rs lines 95-123;
Wander never reaches this point (upstream returns early), so it is given the
empty map. -/
def upstreamScores (s : Signals) (goal : Goal) (tile_pos : TilePos)
    (g : MapGeometry) : List (TilePos × ℚ) :=
  match goal with
  | Goal.wander => []
  | Goal.pickup item_id =>
    mergeSignals
      (s.neighboring_signals (SignalType.push item_id) tile_pos g)
      (s.neighboring_signals (SignalType.contains item_id) tile_pos g)
  | Goal.dropOff item_id =>
    s.neighboring_signals (SignalType.pull item_id) tile_pos g
  | Goal.work structure_id =>
    s.neighboring_signals (SignalType.work structure_id) tile_pos g

/-- Signals::upstream, signals.rs lines 84-135. -/
def Signals.upstream (s : Signals) (tile_pos : TilePos) (goal : Goal)
    (g : MapGeometry) : Option TilePos :=
  match goal with
  | Goal.wander => none
  | _ => chooseBest (g.empty_neighbors tile_pos) (upstreamScores s goal tile_pos g)

/-- The goal-aggregated strength at one tile, following the aggregation of
signals.rs lines 95-123 pointwise: Pickup sums Push and Contains, DropOff uses
Pull, Work uses Work; Wander aggregates nothing. -/
def goalScore (s : Signals) (goal : Goal) (q : TilePos) : ℚ :=
  match goal with
  | Goal.wander => 0
  | Goal.pickup i =>
    s.get (SignalType.push i) q + s.get (SignalType.contains i) q
  | Goal.dropOff i => s.get (SignalType.pull i) q
  | Goal.work st => s.get (SignalType.work st) q

/-- The selection loop as structural recursion over the candidate list,
carrying best_choice and best_score. -/
def selectGo (f : TilePos → ℚ) :
    List TilePos → Option TilePos → ℚ → Option TilePos
  | [], b, _ => b
  | t :: rest, b, s =>
    if s < f t then selectGo f rest (some t) (f t) else selectGo f rest b s

/-- Stated from the claim's words, not from the source: the first tile of the
enumeration whose score is strictly greater than zero and strictly greater
than every earlier candidate's score; the accumulator carries the earlier
candidates. -/
def firstChoiceAux (f : TilePos → ℚ) (earlier : List TilePos) :
    List TilePos → Option TilePos
  | [] => none
  | t :: rest =>
    if 0 < f t ∧ ∀ u ∈ earlier, f u < f t then some t
    else firstChoiceAux f (earlier ++ [t]) rest

/-- Stated from the claim's words, not from the source: the first tile with a
positive score strictly above every earlier candidate. -/
def firstChoice (f : TilePos → ℚ) (tiles : List TilePos) : Option TilePos :=
  firstChoiceAux f [] tiles

/-- The number of occurrences of a tile in a list of tiles. -/
def occCount (q : TilePos) : List TilePos → ℕ
  | [] => 0
  | n :: rest => (if n = q then 1 else 0) + occCount q rest

/-- The total value carried by the entries of an association list at one
key. -/
def sumAt (q : TilePos) (l : List (TilePos × ℚ)) : ℚ :=
  (l.map (fun e => if e.1 = q then e.2 else 0)).sum

/-- The total diffusion inflow staged for a destination tile by one signal
map: each source entry contributes its strength times DIFFUSION_FRACTION once
per occurrence of the destination among its empty neighbors. -/
def inflow (g : MapGeometry) (l : List (TilePos × ℚ)) (q : TilePos) : ℚ :=
  (l.map (fun e =>
    (occCount q (g.empty_neighbors e.1) : ℚ) * (e.2 * DIFFUSION_FRACTION))).sum

/-- All entry values of a signal map are nonnegative. -/
def SignalMap.EntriesNonneg (m : SignalMap) : Prop :=
  ∀ e ∈ m.entries, 0 ≤ e.2

/-- All entry values in every map of the registry are nonnegative: the
representation-level reading of the SignalStrength invariant. -/
def Signals.Nonneg (s : Signals) : Prop :=
  ∀ e ∈ s.maps, e.2.EntriesNonneg

/-- Keys of every per-type map are free of duplicates, as HashMap
guarantees. -/
def Signals.WFKeys (s : Signals) : Prop :=
  ∀ e ∈ s.maps, (keysOf e.2.entries).Nodup

/-- One operation on the registry, for stating the cross-operation
invariant. -/
inductive Op where
  | add : SignalType → TilePos → ℚ → Op
  | sub : SignalType → TilePos → ℚ → Op
  | emit : List (TilePos × List (SignalType × ℚ)) → Op
  | diffuse : MapGeometry → Op
  | degrade : Op

/-- Application of one operation to the registry. -/
def applyOp (s : Signals) : Op → Signals
  | Op.add t p v => s.add_signal t p v
  | Op.sub t p v => s.subtract_signal t p v
  | Op.emit es => emit_signals s es
  | Op.diffuse g => diffuse_signals g s
  | Op.degrade => degrade_signals s

/-- Application of a sequence of operations, first to last. -/
def applyOps (s : Signals) (ops : List Op) : Signals :=
  ops.foldl applyOp s

/-- Every strength fed to an operation is a SignalStrength value, hence
nonnegative: SignalStrength::new clamps at zero and the SignalStrength
arithmetic used by the pipeline preserves nonnegativity. -/
def Op.WF : Op → Prop
  | Op.add _ _ v => 0 ≤ v
  | Op.sub _ _ v => 0 ≤ v
  | Op.emit es => ∀ e ∈ es, ∀ sig ∈ e.2, 0 ≤ sig.2
  | _ => True

/-- Concrete tiles and identifiers used by the witness instantiations. -/
def tA : TilePos := ⟨0⟩

def tB : TilePos := ⟨1⟩

def tC : TilePos := ⟨2⟩

def itemX : ItemId := ⟨0⟩

def itemY : ItemId := ⟨1⟩

/-- Concrete registry used by the C6 witness: one Push signal of strength 1
at tile tA. -/
def sC6 : Signals := ⟨[(SignalType.push itemX, ⟨[(tA, 1)]⟩)]⟩

/-- Concrete geometry for the upstream and diffusion examples: tA has
neighbors tB and tC, both currently empty; every other tile has none. -/
def gEx : MapGeometry :=
  ⟨fun p => if p = tA then [tB, tC] else [],
   fun p => if p = tA then [tB, tC] else []⟩

/-- Concrete registry for the C3 counterexample: Pull(X) strength 1 at tB and
3 at tC. -/
def sPull : Signals := ⟨[(SignalType.pull itemX, ⟨[(tB, 1), (tC, 3)]⟩)]⟩

/-- Concrete registry for the C4 example: Push(X) strength 5/2 at tB and 2 at
tC, Contains(X) strength 1 at tC. -/
def sPick : Signals :=
  ⟨[(SignalType.push itemX, ⟨[(tB, 5/2), (tC, 2)]⟩),
    (SignalType.contains itemX, ⟨[(tC, 1)]⟩)]⟩

/-- One enumeration order of a concrete two-type field, for the C5
witness. -/
def rOrd1 : Signals :=
  ⟨[(SignalType.push itemX, ⟨[(tA, 1)]⟩),
    (SignalType.pull itemX, ⟨[(tB, 2)]⟩)]⟩

/-- The other enumeration order of the same field as rOrd1. -/
def rOrd2 : Signals :=
  ⟨[(SignalType.pull itemX, ⟨[(tB, 2)]⟩),
    (SignalType.push itemX, ⟨[(tA, 1)]⟩)]⟩

theorem lookupKV_insert_self {α β : Type} [DecidableEq α]
    (l : List (α × β)) (k : α) (v : β) :
    lookupKV (insertKV l k v) k = some v := by
  induction l with
  | nil => simp [insertKV, lookupKV]
  | cons e rest ih =>
    by_cases h : e.1 = k
    · simp [insertKV, lookupKV, h]
    · simp [insertKV, lookupKV, h, ih]

theorem lookupKV_insert_ne {α β : Type} [DecidableEq α]
    (l : List (α × β)) (k k' : α) (v : β) (h : k' ≠ k) :
    lookupKV (insertKV l k v) k' = lookupKV l k' := by
  induction l with
  | nil => simp [insertKV, lookupKV, Ne.symm h]
  | cons e rest ih =>
    by_cases he : e.1 = k
    · subst he
      simp [insertKV, lookupKV, Ne.symm h]
    · by_cases he' : e.1 = k'
      · simp [insertKV, lookupKV, he, he', h]
      · simp [insertKV, lookupKV, he, he', ih]

theorem mem_keysOf_insert {α β : Type} [DecidableEq α]
    (l : List (α × β)) (k k' : α) (v : β) :
    k' ∈ keysOf (insertKV l k v) ↔ k' = k ∨ k' ∈ keysOf l := by
  induction l with
  | nil => simp [insertKV, keysOf]
  | cons e rest ih =>
    by_cases he : e.1 = k
    · subst he
      simp [insertKV, keysOf]
    · simp only [insertKV, he, if_false, keysOf, List.map_cons, List.mem_cons]
      rw [show keysOf (insertKV rest k v) = List.map Prod.fst (insertKV rest k v) from rfl] at ih
      rw [show keysOf rest = List.map Prod.fst rest from rfl] at ih
      rw [ih]
      tauto

theorem nodup_keysOf_insert {α β : Type} [DecidableEq α]
    (l : List (α × β)) (k : α) (v : β) (hl : (keysOf l).Nodup) :
    (keysOf (insertKV l k v)).Nodup := by
  induction l with
  | nil => simp [insertKV, keysOf]
  | cons e rest ih =>
    simp only [keysOf, List.map_cons, List.nodup_cons] at hl
    by_cases he : e.1 = k
    · subst he
      simpa [insertKV, keysOf, List.nodup_cons] using hl
    · simp only [insertKV, he, if_false, keysOf, List.map_cons, List.nodup_cons]
      constructor
      · intro hmem
        rcases (mem_keysOf_insert rest k e.1 v).1 hmem with h1 | h1
        · exact he h1
        · exact hl.1 h1
      · exact ih hl.2

theorem lookupKV_eq_some_of_mem {α β : Type} [DecidableEq α]
    (l : List (α × β)) (e : α × β) (hl : (keysOf l).Nodup) (he : e ∈ l) :
    lookupKV l e.1 = some e.2 := by
  induction l with
  | nil => cases he
  | cons a rest ih =>
    simp only [keysOf, List.map_cons, List.nodup_cons] at hl
    rcases List.mem_cons.1 he with h | h
    · subst h; simp [lookupKV]
    · have hne : a.1 ≠ e.1 := by
        intro hh
        exact hl.1 (hh ▸ List.mem_map_of_mem Prod.fst h)
      simp [lookupKV, hne, ih hl.2 h]

theorem lookupKV_map_values {α β γ : Type} [DecidableEq α]
    (l : List (α × β)) (F : β → γ) (k : α) :
    lookupKV (l.map (fun e => (e.1, F e.2))) k = Option.map F (lookupKV l k) := by
  induction l with
  | nil => simp [lookupKV]
  | cons e rest ih =>
    by_cases h : e.1 = k
    · simp [lookupKV, h]
    · simp [lookupKV, h, ih]

theorem SignalMap.get_add_self (m : SignalMap) (p : TilePos) (v : ℚ) :
    (m.add_signal p v).get p = m.get p + v := by
  simp [SignalMap.add_signal, SignalMap.get, lookupKV_insert_self]

theorem SignalMap.get_add_ne (m : SignalMap) (p q : TilePos) (v : ℚ)
    (h : q ≠ p) : (m.add_signal p v).get q = m.get q := by
  simp [SignalMap.add_signal, SignalMap.get, lookupKV_insert_ne _ _ _ _ h]

theorem SignalMap.get_sub_self (m : SignalMap) (p : TilePos) (v : ℚ) :
    (m.subtract_signal p v).get p = ssub (m.get p) v := by
  simp [SignalMap.subtract_signal, SignalMap.get, lookupKV_insert_self]

theorem SignalMap.get_sub_ne (m : SignalMap) (p q : TilePos) (v : ℚ)
    (h : q ≠ p) : (m.subtract_signal p v).get q = m.get q := by
  simp [SignalMap.subtract_signal, SignalMap.get, lookupKV_insert_ne _ _ _ _ h]

theorem Signals.get_after_add (s : Signals) (t : SignalType) (p : TilePos)
    (v : ℚ) : (s.add_signal t p v).get t p = s.get t p + v := by
  unfold Signals.add_signal
  cases hl : lookupKV s.maps t with
  | some m =>
    simp [Signals.get, hl, lookupKV_insert_self, SignalMap.get_add_self]
  | none =>
    simp [Signals.get, hl, lookupKV_insert_self, SignalMap.get_add_self,
      SignalMap.get, lookupKV]

/-- C7: for a (type, pos) pair never written, Signals::get returns exactly
zero, whether the type's SignalMap is absent entirely or present but lacking
that position; absence is not an error and get has no failure mode (it is a
total function). -/
theorem get_zero_default (s : Signals) (t : SignalType) (p : TilePos)
    (h : lookupKV s.maps t = none ∨
      ∃ m, lookupKV s.maps t = some m ∧ lookupKV m.entries p = none) :
    s.get t p = 0 := by
  rcases h with h | ⟨m, hm, hp⟩
  · simp [Signals.get, h]
  · simp [Signals.get, hm, SignalMap.get, hp]

/-- Witness for C7 at the empty registry. -/
theorem get_zero_default_witness :
    Signals.get ⟨[]⟩ (SignalType.push itemX) tA = 0 :=
  get_zero_default ⟨[]⟩ (SignalType.push itemX) tA (Or.inl rfl)

/-- C8: starting from a registry where get(type, pos) is zero, adding s1 then
s2 at the same (type, pos) yields get = s1 + s2; in general add_signal adds to
the existing value (creating the type map and the entry at zero when
absent). -/
theorem add_signal_additive (s : Signals) (t : SignalType) (p : TilePos)
    (a b : ℚ) (h : s.get t p = 0) :
    ((s.add_signal t p a).add_signal t p b).get t p = a + b ∧
    ∀ (r : Signals) (v : ℚ), (r.add_signal t p v).get t p = r.get t p + v := by
  constructor
  · simp [Signals.get_after_add, h]
  · intro r v
    exact Signals.get_after_add r t p v

/-- Witness for C8 at the empty registry. -/
theorem add_signal_additive_witness :
    ((Signals.add_signal ⟨[]⟩ (SignalType.push itemX) tA 2).add_signal
        (SignalType.push itemX) tA 3).get (SignalType.push itemX) tA = 2 + 3 :=
  (add_signal_additive ⟨[]⟩ (SignalType.push itemX) tA 2 3 rfl).1

/-- C10: add_signal changes at most the single entry (type, pos): every other
(type, pos) reads the same value afterwards, and every other type's SignalMap
entry in the registry is untouched. -/
theorem add_signal_frame (s : Signals) (t : SignalType) (p : TilePos)
    (v : ℚ) :
    (∀ t' p', t' ≠ t ∨ p' ≠ p →
      (s.add_signal t p v).get t' p' = s.get t' p') ∧
    ∀ t', t' ≠ t →
      lookupKV (s.add_signal t p v).maps t' = lookupKV s.maps t' := by
  have hmaps : ∀ t', t' ≠ t →
      lookupKV (s.add_signal t p v).maps t' = lookupKV s.maps t' := by
    intro t' ht
    unfold Signals.add_signal
    cases hl : lookupKV s.maps t with
    | some m => simp [lookupKV_insert_ne _ _ _ _ ht]
    | none => simp [lookupKV_insert_ne _ _ _ _ ht]
  refine ⟨?_, hmaps⟩
  intro t' p' h
  by_cases ht : t' = t
  · subst ht
    have hp : p' ≠ p := by tauto
    unfold Signals.add_signal
    cases hl : lookupKV s.maps t' with
    | some m =>
      simp [Signals.get, hl, lookupKV_insert_self,
        SignalMap.get_add_ne _ _ _ _ hp]
    | none =>
      simp [Signals.get, hl, lookupKV_insert_self,
        SignalMap.get_add_ne _ _ _ _ hp, SignalMap.get, lookupKV, Ne.symm hp]
  · simp [Signals.get, hmaps t' ht]

/-- Witness for C10 at the empty registry, a distinct type and a distinct
tile. -/
theorem add_signal_frame_witness :
    (Signals.add_signal ⟨[]⟩ (SignalType.push itemX) tA 2).get
        (SignalType.pull itemX) tB
      = Signals.get ⟨[]⟩ (SignalType.pull itemX) tB ∧
    lookupKV (Signals.add_signal ⟨[]⟩ (SignalType.push itemX) tA 2).maps
        (SignalType.pull itemX)
      = lookupKV (Signals.mk []).maps (SignalType.pull itemX) :=
  ⟨(add_signal_frame ⟨[]⟩ (SignalType.push itemX) tA 2).1
      (SignalType.pull itemX) tB (Or.inl (by decide)),
   (add_signal_frame ⟨[]⟩ (SignalType.push itemX) tA 2).2
      (SignalType.pull itemX) (by decide)⟩

/-- C9: goal_relevant_signals yields exactly the entries whose type is not a
Contains variant; in particular a snapshot holding a Contains entry and a Pull
entry yields only the Pull entry. -/
theorem goal_relevant_signals_iff (ls : LocalSignals) :
    (∀ e : SignalType × ℚ, e ∈ ls.goal_relevant_signals ↔
      e ∈ ls.map ∧ e.1.isContains = false) ∧
    LocalSignals.goal_relevant_signals
        ⟨[(SignalType.contains itemX, 5), (SignalType.pull itemY, 1)]⟩
      = [(SignalType.pull itemY, 1)] := by
  constructor
  · intro e
    simp [LocalSignals.goal_relevant_signals, List.mem_filter]
  · rfl

theorem degrade_get (s : Signals) (t : SignalType) (p : TilePos) :
    (degrade_signals s).get t p = s.get t p * (1 - DEGRADATION_FRACTION) := by
  unfold degrade_signals Signals.get
  rw [lookupKV_map_values s.maps
    (fun m : SignalMap =>
      (⟨m.entries.map (fun en => (en.1, en.2 * (1 - DEGRADATION_FRACTION)))⟩ :
        SignalMap)) t]
  cases hl : lookupKV s.maps t with
  | none => simp
  | some m =>
    show (lookupKV (m.entries.map
        (fun en => (en.1, en.2 * (1 - DEGRADATION_FRACTION)))) p).getD 0
      = (lookupKV m.entries p).getD 0 * (1 - DEGRADATION_FRACTION)
    rw [lookupKV_map_values m.entries
      (fun v : ℚ => v * (1 - DEGRADATION_FRACTION)) p]
    cases lookupKV m.entries p <;> simp

/-- C6: applying the decay phase alone n times takes every queryable strength
v0 to exactly v0 * (1 - DEGRADATION_FRACTION) ^ n; a single decay step
strictly decreases every nonzero strength and never produces a negative
value. -/
theorem degrade_closed_form (s : Signals) (t : SignalType) (p : TilePos)
    (n : ℕ) :
    (degrade_signals^[n] s).get t p
        = s.get t p * (1 - DEGRADATION_FRACTION) ^ n ∧
    (0 < s.get t p → (degrade_signals s).get t p < s.get t p) ∧
    (0 ≤ s.get t p → 0 ≤ (degrade_signals s).get t p) := by
  refine ⟨?_, ?_, ?_⟩
  · induction n generalizing s with
    | zero => simp
    | succ k ih =>
      rw [Function.iterate_succ_apply, ih (degrade_signals s), degrade_get]
      ring
  · intro h
    rw [degrade_get]
    unfold DEGRADATION_FRACTION
    nlinarith
  · intro h
    rw [degrade_get]
    unfold DEGRADATION_FRACTION
    nlinarith

/-- Witness for C6 at two decay steps on a concrete registry. -/
theorem degrade_closed_form_witness :
    (degrade_signals^[2] sC6).get (SignalType.push itemX) tA
        = sC6.get (SignalType.push itemX) tA * (1 - DEGRADATION_FRACTION) ^ 2 ∧
    (degrade_signals sC6).get (SignalType.push itemX) tA
        < sC6.get (SignalType.push itemX) tA :=
  ⟨(degrade_closed_form sC6 (SignalType.push itemX) tA 2).1,
   (degrade_closed_form sC6 (SignalType.push itemX) tA 2).2.1 (by decide)⟩

theorem lookupKV_eq_none_of_not_mem {α β : Type} [DecidableEq α]
    (l : List (α × β)) (k : α) (h : k ∉ keysOf l) : lookupKV l k = none := by
  induction l with
  | nil => rfl
  | cons e rest ih =>
    simp only [keysOf, List.map_cons, List.mem_cons] at h
    push_neg at h
    simp [lookupKV, Ne.symm h.1, ih (by simpa [keysOf] using h.2)]

theorem lookupKV_foldl_insert (f : TilePos → ℚ) (L : List TilePos)
    (m : List (TilePos × ℚ)) (q : TilePos) :
    lookupKV (L.foldl (fun acc n => insertKV acc n (f n)) m) q
      = if q ∈ L then some (f q) else lookupKV m q := by
  induction L generalizing m with
  | nil => simp
  | cons a L ih =>
    rw [List.foldl_cons, ih]
    by_cases hq : q ∈ L
    · simp [hq]
    · by_cases hqa : q = a
      · subst hqa
        simp [hq, lookupKV_insert_self]
      · simp [hq, hqa, lookupKV_insert_ne _ _ _ _ hqa]

theorem nodup_keysOf_foldl_insert (f : TilePos → ℚ) (L : List TilePos)
    (m : List (TilePos × ℚ)) (hm : (keysOf m).Nodup) :
    (keysOf (L.foldl (fun acc n => insertKV acc n (f n)) m)).Nodup := by
  induction L generalizing m with
  | nil => simpa
  | cons a L ih => exact ih _ (nodup_keysOf_insert _ _ _ hm)

theorem neighboring_signals_lookup (s : Signals) (T : SignalType)
    (p : TilePos) (g : MapGeometry) (q : TilePos) :
    lookupKV (s.neighboring_signals T p g) q
      = if q ∈ g.neighbors p ∨ q = p then some (s.get T q) else none := by
  unfold Signals.neighboring_signals
  rw [lookupKV_foldl_insert]
  by_cases h1 : q ∈ g.neighbors p
  · simp [h1]
  · by_cases h2 : q = p
    · subst h2
      simp [h1, lookupKV_insert_self]
    · simp [lookupKV, insertKV, h1, h2, Ne.symm h2]

theorem nodup_keysOf_neighboring (s : Signals) (T : SignalType)
    (p : TilePos) (g : MapGeometry) :
    (keysOf (s.neighboring_signals T p g)).Nodup := by
  unfold Signals.neighboring_signals
  apply nodup_keysOf_foldl_insert
  exact nodup_keysOf_insert [] p _ (by simp [keysOf])

theorem lookupKV_mergeStep_self (tot : List (TilePos × ℚ))
    (e : TilePos × ℚ) :
    lookupKV (mergeStep tot e) e.1 = some ((lookupKV tot e.1).getD 0 + e.2) := by
  unfold mergeStep
  cases h : lookupKV tot e.1 with
  | some v => simp [h, lookupKV_insert_self]
  | none => simp [h, lookupKV_insert_self]

theorem lookupKV_mergeStep_ne (tot : List (TilePos × ℚ))
    (e : TilePos × ℚ) (q : TilePos) (h : q ≠ e.1) :
    lookupKV (mergeStep tot e) q = lookupKV tot q := by
  unfold mergeStep
  cases lookupKV tot e.1 <;> simp [lookupKV_insert_ne _ _ _ _ h]

theorem mergeSignals_lookup (tot extra : List (TilePos × ℚ))
    (hx : (keysOf extra).Nodup) (q : TilePos) :
    lookupKV (mergeSignals tot extra) q
      = match lookupKV extra q with
        | some v => some ((lookupKV tot q).getD 0 + v)
        | none => lookupKV tot q := by
  induction extra generalizing tot with
  | nil => simp [mergeSignals, lookupKV]
  | cons e rest ih =>
    simp only [keysOf, List.map_cons, List.nodup_cons] at hx
    have hrest : (keysOf rest).Nodup := hx.2
    show lookupKV (mergeSignals (mergeStep tot e) rest) q = _
    rw [ih (mergeStep tot e) hrest]
    by_cases hq : q = e.1
    · subst hq
      have hnone : lookupKV rest e.1 = none :=
        lookupKV_eq_none_of_not_mem rest e.1 (by simpa [keysOf] using hx.1)
      rw [hnone]
      simp [lookupKV, lookupKV_mergeStep_self]
    · rw [lookupKV_mergeStep_ne tot e q hq]
      simp [lookupKV, Ne.symm hq]

theorem chooseBest_fold_eq (scores : List (TilePos × ℚ)) (f : TilePos → ℚ) :
    ∀ (tiles : List TilePos),
      (∀ t ∈ tiles, lookupKV scores t = some (f t)) →
      ∀ (b : Option TilePos) (sc : ℚ),
        (tiles.foldl (chooseStep scores) (b, sc)).1 = selectGo f tiles b sc := by
  intro tiles
  induction tiles with
  | nil =>
    intro _ b sc
    rfl
  | cons a rest ih =>
    intro h b sc
    have ha : lookupKV scores a = some (f a) := h a (List.mem_cons_self a rest)
    have hrest := fun t ht => h t (List.mem_cons_of_mem a ht)
    rw [List.foldl_cons]
    by_cases hsc : sc < f a
    · rw [show chooseStep scores (b, sc) a = (some a, f a) by
        simp [chooseStep, ha, hsc]]
      rw [ih hrest (some a) (f a)]
      show _ = if sc < f a then selectGo f rest (some a) (f a) else _
      rw [if_pos hsc]
    · rw [show chooseStep scores (b, sc) a = (b, sc) by
        simp [chooseStep, ha, hsc]]
      rw [ih hrest b sc]
      show _ = if sc < f a then _ else selectGo f rest b sc
      rw [if_neg hsc]

theorem chooseBest_eq_selectGo (tiles : List TilePos)
    (scores : List (TilePos × ℚ)) (f : TilePos → ℚ)
    (h : ∀ t ∈ tiles, lookupKV scores t = some (f t)) :
    chooseBest tiles scores = selectGo f tiles none 0 :=
  chooseBest_fold_eq scores f tiles h none 0

theorem selectGo_eq_base (f : TilePos → ℚ) :
    ∀ (tiles : List TilePos) (b : Option TilePos) (s : ℚ),
      (∀ u ∈ tiles, f u ≤ s) → selectGo f tiles b s = b := by
  intro tiles
  induction tiles with
  | nil =>
    intro b s _
    rfl
  | cons a rest ih =>
    intro b s h
    have hna : ¬ s < f a := not_lt.mpr (h a (List.mem_cons_self a rest))
    show (if s < f a then selectGo f rest (some a) (f a)
        else selectGo f rest b s) = b
    rw [if_neg hna]
    exact ih b s (fun u hu => h u (List.mem_cons_of_mem a hu))

theorem selectGo_eq_some_iff (f : TilePos → ℚ) :
    ∀ (tiles : List TilePos) (b : Option TilePos) (s : ℚ) (t : TilePos),
      selectGo f tiles b s = some t ↔
        (∃ pre post, tiles = pre ++ t :: post ∧ s < f t ∧
          (∀ u ∈ pre, f u < f t) ∧ ∀ v ∈ post, f v ≤ f t) ∨
        (b = some t ∧ ∀ u ∈ tiles, f u ≤ s) := by
  intro tiles
  induction tiles with
  | nil =>
    intro b s t
    constructor
    · intro h
      exact Or.inr ⟨h, by simp⟩
    · rintro (⟨pre, post, hsplit, -⟩ | ⟨hb, -⟩)
      · exact absurd hsplit (by simp)
      · exact hb
  | cons a rest ih =>
    intro b s t
    show (if s < f a then selectGo f rest (some a) (f a)
        else selectGo f rest b s) = some t ↔ _
    by_cases hsa : s < f a
    · rw [if_pos hsa, ih (some a) (f a) t]
      constructor
      · rintro (⟨pre, post, hsplit, hft, hpre, hpost⟩ | ⟨hat, hall⟩)
        · refine Or.inl ⟨a :: pre, post, by rw [hsplit]; rfl,
            lt_trans hsa hft, ?_, hpost⟩
          intro u hu
          rcases List.mem_cons.1 hu with h1 | h1
          · subst h1
            exact hft
          · exact hpre u h1
        · have hat' : a = t := Option.some.inj hat
          subst hat'
          exact Or.inl ⟨[], rest, rfl, hsa, by simp, hall⟩
      · rintro (⟨pre, post, hsplit, hft, hpre, hpost⟩ | ⟨hb, hall⟩)
        · cases pre with
          | nil =>
            simp only [List.nil_append, List.cons.injEq] at hsplit
            refine Or.inr ⟨by rw [hsplit.1], ?_⟩
            intro u hu
            rw [hsplit.1]
            exact hpost u (hsplit.2 ▸ hu)
          | cons a' pre' =>
            simp only [List.cons_append, List.cons.injEq] at hsplit
            refine Or.inl ⟨pre', post, hsplit.2, ?_, ?_, hpost⟩
            · rw [hsplit.1]
              exact hpre a' (List.mem_cons_self a' pre')
            · intro u hu
              exact hpre u (List.mem_cons_of_mem a' hu)
        · exact absurd (hall a (List.mem_cons_self a rest)) (not_le.mpr hsa)
    · rw [if_neg hsa, ih b s t]
      have hfa : f a ≤ s := not_lt.mp hsa
      constructor
      · rintro (⟨pre, post, hsplit, hft, hpre, hpost⟩ | ⟨hb, hall⟩)
        · refine Or.inl ⟨a :: pre, post, by rw [hsplit]; rfl, hft, ?_, hpost⟩
          intro u hu
          rcases List.mem_cons.1 hu with h1 | h1
          · subst h1
            exact lt_of_le_of_lt hfa hft
          · exact hpre u h1
        · refine Or.inr ⟨hb, ?_⟩
          intro u hu
          rcases List.mem_cons.1 hu with h1 | h1
          · subst h1
            exact hfa
          · exact hall u h1
      · rintro (⟨pre, post, hsplit, hft, hpre, hpost⟩ | ⟨hb, hall⟩)
        · cases pre with
          | nil =>
            simp only [List.nil_append, List.cons.injEq] at hsplit
            rw [← hsplit.1] at hft
            exact absurd hft (not_lt.mpr hfa)
          | cons a' pre' =>
            simp only [List.cons_append, List.cons.injEq] at hsplit
            refine Or.inl ⟨pre', post, hsplit.2, hft, ?_, hpost⟩
            intro u hu
            exact hpre u (List.mem_cons_of_mem a' hu)
        · exact Or.inr ⟨hb, fun u hu => hall u (List.mem_cons_of_mem a hu)⟩

theorem pickup_scores_lookup (s : Signals) (g : MapGeometry) (p : TilePos)
    (i : ItemId) (q : TilePos) (hq : q ∈ g.neighbors p ∨ q = p) :
    lookupKV (upstreamScores s (Goal.pickup i) p g) q
      = some (s.get (SignalType.push i) q + s.get (SignalType.contains i) q) := by
  show lookupKV (mergeSignals
      (s.neighboring_signals (SignalType.push i) p g)
      (s.neighboring_signals (SignalType.contains i) p g)) q = _
  rw [mergeSignals_lookup _ _
    (nodup_keysOf_neighboring s (SignalType.contains i) p g) q]
  rw [neighboring_signals_lookup, neighboring_signals_lookup,
    if_pos hq, if_pos hq]
  simp

theorem upstream_scores_lookup (s : Signals) (g : MapGeometry) (p : TilePos)
    (goal : Goal) (hg : goal ≠ Goal.wander) (q : TilePos)
    (hq : q ∈ g.neighbors p ∨ q = p) :
    lookupKV (upstreamScores s goal p g) q = some (goalScore s goal q) := by
  cases goal with
  | wander => exact absurd rfl hg
  | pickup i => exact pickup_scores_lookup s g p i q hq
  | dropOff i =>
    show lookupKV (s.neighboring_signals (SignalType.pull i) p g) q = _
    rw [neighboring_signals_lookup, if_pos hq]
    rfl
  | work st =>
    show lookupKV (s.neighboring_signals (SignalType.work st) p g) q = _
    rw [neighboring_signals_lookup, if_pos hq]
    rfl

theorem upstream_eq_selectGo (s : Signals) (g : MapGeometry) (p : TilePos)
    (goal : Goal) (hg : goal ≠ Goal.wander)
    (hsub : ∀ q ∈ g.empty_neighbors p, q ∈ g.neighbors p) :
    s.upstream p goal g
      = selectGo (goalScore s goal) (g.empty_neighbors p) none 0 := by
  have h1 : s.upstream p goal g
      = chooseBest (g.empty_neighbors p) (upstreamScores s goal p g) := by
    cases goal with
    | wander => exact absurd rfl hg
    | pickup i => rfl
    | dropOff i => rfl
    | work st => rfl
  rw [h1]
  exact chooseBest_eq_selectGo _ _ _ (fun t ht =>
    upstream_scores_lookup s g p goal hg t (Or.inl (hsub t ht)))

/-- C3 (amended): upstream returns some t exactly when t is the last tile of
the empty-neighbor enumeration whose goal-aggregated score is strictly
positive and strictly greater than every earlier candidate's score
(equivalently, the first tile attaining the maximum score when that maximum is
positive, so ties keep the first tile found); it returns none when every
empty neighbor's aggregated score is zero, and for Wander it returns none
regardless of field state. -/
theorem upstream_characterization (s : Signals) (g : MapGeometry)
    (p : TilePos) (goal : Goal)
    (hsub : ∀ q ∈ g.empty_neighbors p, q ∈ g.neighbors p) :
    (∀ t, s.upstream p goal g = some t ↔
      (goal ≠ Goal.wander ∧ ∃ pre post,
        g.empty_neighbors p = pre ++ t :: post ∧
        0 < goalScore s goal t ∧
        (∀ u ∈ pre, goalScore s goal u < goalScore s goal t) ∧
        ∀ v ∈ post, goalScore s goal v ≤ goalScore s goal t)) ∧
    ((∀ u ∈ g.empty_neighbors p, goalScore s goal u = 0) →
      s.upstream p goal g = none) ∧
    s.upstream p Goal.wander g = none := by
  refine ⟨?_, ?_, rfl⟩
  · intro t
    by_cases hg : goal = Goal.wander
    · subst hg
      simp [show s.upstream p Goal.wander g = none from rfl]
    · rw [upstream_eq_selectGo s g p goal hg hsub, selectGo_eq_some_iff]
      simp [hg]
  · intro h0
    by_cases hg : goal = Goal.wander
    · subst hg
      rfl
    · rw [upstream_eq_selectGo s g p goal hg hsub]
      exact selectGo_eq_base _ _ _ _ (fun u hu => le_of_eq (h0 u hu))

/-- Witness for the amended C3 theorem, instantiated at the Wander goal on
concrete inputs. -/
theorem upstream_characterization_witness :
    Signals.upstream sPull tA Goal.wander gEx = none :=
  (upstream_characterization sPull gEx tA Goal.wander (fun _ hq => hq)).2.2

/-- C3 counterexample: with Pull(X) strength 1 at tB and 3 at tC and the
enumeration [tB, tC], upstream for DropOff(X) returns tC (the last strict
improver of the running best), while the first tile of the enumeration whose
score is positive and strictly above every earlier candidate is tB; the
claim's characterization by the first such tile therefore fails here. -/
theorem upstream_first_tile_counterexample :
    Signals.upstream sPull tA (Goal.dropOff itemX) gEx = some tC ∧
    firstChoice (goalScore sPull (Goal.dropOff itemX))
        (gEx.empty_neighbors tA) = some tB ∧
    tB ≠ tC := by
  refine ⟨by decide, by decide, by decide⟩

/-- C4: for goal Pickup(item) the aggregated score consulted by upstream at
each tile of the neighborhood equals the sum of the Push(item) strength and
the Contains(item) strength there; concretely, a neighbor with Push = 2 and
Contains = 1 (score 3) outranks a neighbor with Push = 5/2 alone. -/
theorem pickup_aggregation (s : Signals) (g : MapGeometry) (p : TilePos)
    (i : ItemId) (q : TilePos) (hq : q ∈ g.neighbors p ∨ q = p) :
    lookupKV (upstreamScores s (Goal.pickup i) p g) q
      = some (s.get (SignalType.push i) q + s.get (SignalType.contains i) q) ∧
    Signals.upstream sPick tA (Goal.pickup itemX) gEx = some tC := by
  refine ⟨pickup_scores_lookup s g p i q hq, ?_⟩
  rw [upstream_eq_selectGo sPick gEx tA (Goal.pickup itemX) (by decide)
    (fun _ hq' => hq')]
  norm_num +decide [selectGo, goalScore, Signals.get, SignalMap.get, lookupKV,
    sPick, gEx, tA, tB, tC, itemX]

/-- Witness for C4 at concrete inputs. -/
theorem pickup_aggregation_witness :
    lookupKV (upstreamScores sPick (Goal.pickup itemX) tA gEx) tB
      = some (sPick.get (SignalType.push itemX) tB
          + sPick.get (SignalType.contains itemX) tB) :=
  (pickup_aggregation sPick gEx tA itemX tB (Or.inl (by decide))).1

theorem mem_of_lookupKV {α β : Type} [DecidableEq α] :
    ∀ (l : List (α × β)) (k : α) (v : β),
      lookupKV l k = some v → (k, v) ∈ l := by
  intro l
  induction l with
  | nil =>
    intro k v h
    cases h
  | cons e rest ih =>
    intro k v h
    simp only [lookupKV] at h
    by_cases he : e.1 = k
    · rw [if_pos he] at h
      have hv : e.2 = v := Option.some.inj h
      have hkv : e = (k, v) := by
        obtain ⟨e1, e2⟩ := e
        simp only at he hv
        rw [he, hv]
      exact hkv ▸ List.mem_cons_self e rest
    · rw [if_neg he] at h
      exact List.mem_cons_of_mem e (ih k v h)

theorem mem_insertKV {α β : Type} [DecidableEq α] :
    ∀ (l : List (α × β)) (k : α) (v : β) (e : α × β),
      e ∈ insertKV l k v → e = (k, v) ∨ e ∈ l := by
  intro l
  induction l with
  | nil =>
    intro k v e he
    simp only [insertKV, List.mem_singleton] at he
    exact Or.inl he
  | cons a rest ih =>
    intro k v e he
    by_cases ha : a.1 = k
    · simp only [insertKV, if_pos ha, List.mem_cons] at he
      rcases he with h1 | h1
      · exact Or.inl h1
      · exact Or.inr (List.mem_cons_of_mem a h1)
    · simp only [insertKV, if_neg ha, List.mem_cons] at he
      rcases he with h1 | h1
      · exact Or.inr (h1 ▸ List.mem_cons_self a rest)
      · rcases ih k v e h1 with h2 | h2
        · exact Or.inl h2
        · exact Or.inr (List.mem_cons_of_mem a h2)

theorem Signals.get_eq_of_lookup (s : Signals) (t : SignalType) (p : TilePos)
    (m : SignalMap) (hl : lookupKV s.maps t = some m) : s.get t p = m.get p := by
  unfold Signals.get
  rw [hl]

theorem Signals.get_eq_zero_of_lookup_none (s : Signals) (t : SignalType)
    (p : TilePos) (hl : lookupKV s.maps t = none) : s.get t p = 0 := by
  unfold Signals.get
  rw [hl]

theorem foldl_prod {α β γ : Type} (F : α → γ → α) (G : β → γ → β)
    (L : List γ) (z : α × β) :
    L.foldl (fun ms n => (F ms.1 n, G ms.2 n)) z
      = (L.foldl F z.1, L.foldl G z.2) := by
  induction L generalizing z with
  | nil => rfl
  | cons a L ih => simp [List.foldl_cons, ih]

theorem foldl_snd_of_eq {α β γ : Type} (S : (α × β) → γ → (α × β))
    (G : β → γ → β) (hS : ∀ z e, (S z e).2 = G z.2 e) :
    ∀ (L : List γ) (z : α × β), (L.foldl S z).2 = L.foldl G z.2 := by
  intro L
  induction L with
  | nil => intro z; rfl
  | cons a L ih =>
    intro z
    rw [List.foldl_cons, List.foldl_cons, ih, hS]

theorem stageTile_eq (g : MapGeometry) (ms : SignalMap × SignalMap)
    (e : TilePos × ℚ) :
    stageTile g ms e =
      ((g.empty_neighbors e.1).foldl
        (fun m _ => m.add_signal e.1 (e.2 * DIFFUSION_FRACTION)) ms.1,
       (g.empty_neighbors e.1).foldl
        (fun m n => m.add_signal n (e.2 * DIFFUSION_FRACTION)) ms.2) := by
  unfold stageTile
  exact foldl_prod (fun m _ => m.add_signal e.1 (e.2 * DIFFUSION_FRACTION))
    (fun m n => m.add_signal n (e.2 * DIFFUSION_FRACTION))
    (g.empty_neighbors e.1) ms

theorem stageMaps_snd (g : MapGeometry) (m : SignalMap) :
    (stageMaps g m).2 = m.entries.foldl
      (fun am e => (g.empty_neighbors e.1).foldl
        (fun mm n => mm.add_signal n (e.2 * DIFFUSION_FRACTION)) am) ⟨[]⟩ :=
  foldl_snd_of_eq (stageTile g) _
    (fun z e => by rw [stageTile_eq]) m.entries _

theorem get_foldl_add_const (a : ℚ) :
    ∀ (L : List TilePos) (m : SignalMap) (q : TilePos),
      (L.foldl (fun mm n => mm.add_signal n a) m).get q
        = m.get q + (occCount q L : ℚ) * a := by
  intro L
  induction L with
  | nil =>
    intro m q
    simp [occCount]
  | cons n L ih =>
    intro m q
    rw [List.foldl_cons, ih]
    by_cases h : n = q
    · subst h
      rw [SignalMap.get_add_self]
      simp only [occCount, if_pos rfl]
      push_cast
      ring
    · rw [SignalMap.get_add_ne _ _ _ _ (Ne.symm h)]
      simp [occCount, h]

theorem get_foldl_add_entries :
    ∀ (l : List (TilePos × ℚ)) (m : SignalMap) (q : TilePos),
      (l.foldl (fun acc e => acc.add_signal e.1 e.2) m).get q
        = m.get q + sumAt q l := by
  intro l
  induction l with
  | nil =>
    intro m q
    simp [sumAt]
  | cons e rest ih =>
    intro m q
    rw [List.foldl_cons, ih]
    by_cases h : e.1 = q
    · subst h
      rw [SignalMap.get_add_self]
      simp only [sumAt, List.map_cons, List.sum_cons, eq_self_iff_true,
        if_true]
      ring
    · rw [SignalMap.get_add_ne _ _ _ _ (Ne.symm h)]
      simp [sumAt, h]

theorem sumAt_eq_zero_of_not_mem :
    ∀ (l : List (TilePos × ℚ)) (q : TilePos), q ∉ keysOf l → sumAt q l = 0 := by
  intro l
  induction l with
  | nil =>
    intro q _
    rfl
  | cons e rest ih =>
    intro q h
    simp only [keysOf, List.map_cons, List.mem_cons] at h
    push_neg at h
    have h2 : (rest.map (fun e1 => if e1.1 = q then e1.2 else 0)).sum = 0 := by
      simpa [sumAt] using ih q (by simpa [keysOf] using h.2)
    simp [sumAt, if_neg (Ne.symm h.1), h2]

theorem sumAt_eq_lookup :
    ∀ (l : List (TilePos × ℚ)), (keysOf l).Nodup →
      ∀ q, sumAt q l = (lookupKV l q).getD 0 := by
  intro l
  induction l with
  | nil =>
    intro _ q
    rfl
  | cons e rest ih =>
    intro h q
    simp only [keysOf, List.map_cons, List.nodup_cons] at h
    by_cases hq : e.1 = q
    · subst hq
      have h0 : (rest.map (fun e1 => if e1.1 = e.1 then e1.2 else 0)).sum = 0 := by
        simpa [sumAt] using
          sumAt_eq_zero_of_not_mem rest e.1 (by simpa [keysOf] using h.1)
      simp [sumAt, lookupKV, h0]
    · simp only [sumAt, List.map_cons, List.sum_cons, if_neg hq, lookupKV,
        zero_add]
      exact ih h.2 q

theorem get_foldl_sub_entries :
    ∀ (l : List (TilePos × ℚ)) (m : SignalMap) (q : TilePos),
      (keysOf l).Nodup →
      (l.foldl (fun acc e => acc.subtract_signal e.1 e.2) m).get q
        = if q ∈ keysOf l then ssub (m.get q) ((lookupKV l q).getD 0)
          else m.get q := by
  intro l
  induction l with
  | nil =>
    intro m q _
    simp [keysOf]
  | cons e rest ih =>
    intro m q h
    simp only [keysOf, List.map_cons, List.nodup_cons] at h
    rw [List.foldl_cons, ih _ _ h.2]
    by_cases hq : q ∈ keysOf rest
    · have hne : q ≠ e.1 := fun hh => h.1 (hh ▸ hq)
      rw [if_pos hq, SignalMap.get_sub_ne _ _ _ _ hne]
      have hm : q ∈ keysOf (e :: rest) := by
        simp only [keysOf, List.map_cons, List.mem_cons]
        exact Or.inr hq
      rw [if_pos hm]
      simp [lookupKV, Ne.symm hne]
    · by_cases hqe : q = e.1
      · subst hqe
        rw [if_neg hq, SignalMap.get_sub_self]
        have hm : e.1 ∈ keysOf (e :: rest) := by
          simp [keysOf]
        rw [if_pos hm]
        simp [lookupKV]
      · rw [if_neg hq, SignalMap.get_sub_ne _ _ _ _ hqe]
        have hm : q ∉ keysOf (e :: rest) := by
          simp only [keysOf, List.map_cons, List.mem_cons]
          push_neg
          exact ⟨hqe, hq⟩
        rw [if_neg hm]

theorem nodup_keysOf_foldl_add_const (a : ℚ) :
    ∀ (L : List TilePos) (m : SignalMap), (keysOf m.entries).Nodup →
      (keysOf ((L.foldl (fun mm n => mm.add_signal n a) m)).entries).Nodup := by
  intro L
  induction L with
  | nil =>
    intro m h
    exact h
  | cons n L ih =>
    intro m h
    exact ih _ (nodup_keysOf_insert _ _ _ h)

theorem nodup_stage_addition (g : MapGeometry) (m : SignalMap) :
    (keysOf (stageMaps g m).2.entries).Nodup := by
  rw [stageMaps_snd]
  suffices h : ∀ (l : List (TilePos × ℚ)) (am : SignalMap),
      (keysOf am.entries).Nodup →
      (keysOf ((l.foldl (fun am e => (g.empty_neighbors e.1).foldl
        (fun mm n => mm.add_signal n (e.2 * DIFFUSION_FRACTION)) am)
        am)).entries).Nodup by
    exact h m.entries ⟨[]⟩ (by simp [keysOf])
  intro l
  induction l with
  | nil =>
    intro am h
    exact h
  | cons e rest ih =>
    intro am h
    exact ih _ (nodup_keysOf_foldl_add_const _ _ _ h)

theorem stage_addition_get (g : MapGeometry) (m : SignalMap) (q : TilePos) :
    (stageMaps g m).2.get q = inflow g m.entries q := by
  rw [stageMaps_snd]
  suffices h : ∀ (l : List (TilePos × ℚ)) (am : SignalMap),
      ((l.foldl (fun am e => (g.empty_neighbors e.1).foldl
        (fun mm n => mm.add_signal n (e.2 * DIFFUSION_FRACTION)) am)
        am)).get q
      = am.get q + inflow g l q by
    rw [h m.entries ⟨[]⟩]
    simp [SignalMap.get, lookupKV]
  intro l
  induction l with
  | nil =>
    intro am
    simp [inflow]
  | cons e rest ih =>
    intro am
    rw [List.foldl_cons, ih, get_foldl_add_const]
    simp only [inflow, List.map_cons, List.sum_cons]
    ring

theorem get_nonneg_of_entries (m : SignalMap) (hm : m.EntriesNonneg)
    (q : TilePos) : 0 ≤ m.get q := by
  unfold SignalMap.get
  cases hl : lookupKV m.entries q with
  | none => simp
  | some v =>
    have hv : (q, v) ∈ m.entries := mem_of_lookupKV m.entries q v hl
    simpa using hm (q, v) hv

theorem entriesNonneg_insertKV (l : List (TilePos × ℚ)) (p : TilePos) (v : ℚ)
    (hl : ∀ e ∈ l, 0 ≤ e.2) (hv : 0 ≤ v) :
    ∀ e ∈ insertKV l p v, 0 ≤ e.2 := by
  intro e he
  rcases mem_insertKV l p v e he with h1 | h1
  · rw [h1]
    exact hv
  · exact hl e h1

theorem entriesNonneg_add_signal (m : SignalMap) (p : TilePos) (v : ℚ)
    (hm : m.EntriesNonneg) (hv : 0 ≤ v) :
    (m.add_signal p v).EntriesNonneg :=
  entriesNonneg_insertKV _ _ _ hm
    (add_nonneg (get_nonneg_of_entries m hm p) hv)

theorem entriesNonneg_subtract_signal (m : SignalMap) (p : TilePos) (v : ℚ)
    (hm : m.EntriesNonneg) : (m.subtract_signal p v).EntriesNonneg :=
  entriesNonneg_insertKV _ _ _ hm (le_max_right _ _)

theorem commitMaps_get (g : MapGeometry) (orig m : SignalMap) (q : TilePos)
    (hq : 0 ≤ orig.get q) :
    (commitMaps orig (stageMaps g m)).get q
      = ssub (orig.get q) (inflow g m.entries q) + inflow g m.entries q := by
  unfold commitMaps
  have hnd : (keysOf (stageMaps g m).2.entries).Nodup := nodup_stage_addition g m
  have hget : (stageMaps g m).2.get q = inflow g m.entries q :=
    stage_addition_get g m q
  rw [get_foldl_add_entries, get_foldl_sub_entries _ _ _ hnd,
    sumAt_eq_lookup _ hnd q]
  have hlg : (lookupKV (stageMaps g m).2.entries q).getD 0
      = inflow g m.entries q := hget
  rw [hlg]
  by_cases hmem : q ∈ keysOf (stageMaps g m).2.entries
  · rw [if_pos hmem]
  · rw [if_neg hmem]
    have h0 : inflow g m.entries q = 0 := by
      rw [← hlg, lookupKV_eq_none_of_not_mem _ _ hmem]
      rfl
    rw [h0]
    simp [ssub, max_eq_left hq]

theorem diffuse_signals_get (g : MapGeometry) (r : Signals) (t : SignalType)
    (q : TilePos) (hr : Signals.Nonneg r) :
    (diffuse_signals g r).get t q
      = match lookupKV r.maps t with
        | none => 0
        | some m =>
          ssub (m.get q) (inflow g m.entries q) + inflow g m.entries q := by
  unfold diffuse_signals Signals.get
  rw [lookupKV_map_values r.maps
    (fun mm : SignalMap => commitMaps mm (stageMaps g mm)) t]
  cases hl : lookupKV r.maps t with
  | none => rfl
  | some m =>
    show (commitMaps m (stageMaps g m)).get q = _
    have hm : m.EntriesNonneg := hr (t, m) (mem_of_lookupKV r.maps t m hl)
    exact commitMaps_get g m m q (get_nonneg_of_entries m hm q)

/-- C1 (code bug, evaluated at the failing input): a single Push signal of
strength v = 1 at tA, whose empty neighbors are tB and tC (k = 2).  The
commit pass binds its removal map from pending_additions (signals.rs lines
350-351), so the staged removal map is never applied: the source tile keeps
strength 1 instead of the claimed v - k * v * DIFFUSION_FRACTION = 4/5,
while each empty neighbor does gain v * DIFFUSION_FRACTION as claimed. -/
theorem diffusion_source_not_reduced :
    (diffuse_signals gEx sC6).get (SignalType.push itemX) tA = 1 ∧
    (1 : ℚ) ≠ 1 - 2 * (1 * DIFFUSION_FRACTION) ∧
    (diffuse_signals gEx sC6).get (SignalType.push itemX) tB
      = 1 * DIFFUSION_FRACTION ∧
    (diffuse_signals gEx sC6).get (SignalType.push itemX) tC
      = 1 * DIFFUSION_FRACTION := by
  have hn : sC6.Nonneg := by
    intro e he
    simp only [sC6, List.mem_singleton] at he
    subst he
    intro en hen
    simp only [List.mem_singleton] at hen
    subst hen
    norm_num
  refine ⟨?_, by norm_num [DIFFUSION_FRACTION], ?_, ?_⟩ <;>
    rw [diffuse_signals_get gEx sC6 _ _ hn] <;>
    norm_num +decide [sC6, lookupKV, inflow, occCount, gEx, ssub, max_def,
      SignalMap.get, DIFFUSION_FRACTION, tA, tB, tC, itemX]

theorem inflow_eq_finset_sum (g : MapGeometry) (q : TilePos) :
    ∀ (l : List (TilePos × ℚ)), (keysOf l).Nodup →
      ∀ (S : Finset TilePos), (∀ p ∈ keysOf l, p ∈ S) →
      inflow g l q = S.sum (fun p =>
        (occCount q (g.empty_neighbors p) : ℚ)
          * (((lookupKV l p).getD 0) * DIFFUSION_FRACTION)) := by
  intro l
  induction l with
  | nil =>
    intro _ S _
    simp [inflow, lookupKV]
  | cons e rest ih =>
    intro h S hS
    simp only [keysOf, List.map_cons, List.nodup_cons] at h
    have he1S : e.1 ∈ S := hS e.1 (by simp [keysOf])
    have hS' : ∀ p ∈ keysOf rest, p ∈ S.erase e.1 := by
      intro p hp
      refine Finset.mem_erase.2 ⟨fun hpe => h.1 (hpe ▸ hp), ?_⟩
      exact hS p (List.mem_cons_of_mem e.1 hp)
    rw [← Finset.add_sum_erase S _ he1S]
    have hsum : (S.erase e.1).sum (fun p =>
        (occCount q (g.empty_neighbors p) : ℚ)
          * (((lookupKV (e :: rest) p).getD 0) * DIFFUSION_FRACTION))
        = (S.erase e.1).sum (fun p =>
        (occCount q (g.empty_neighbors p) : ℚ)
          * (((lookupKV rest p).getD 0) * DIFFUSION_FRACTION)) := by
      refine Finset.sum_congr rfl ?_
      intro p hp
      have hpe : p ≠ e.1 := (Finset.mem_erase.1 hp).1
      rw [show lookupKV (e :: rest) p = lookupKV rest p from by
        simp [lookupKV, Ne.symm hpe]]
    rw [hsum, ← ih h.2 (S.erase e.1) hS']
    simp only [inflow, List.map_cons, List.sum_cons]
    have hself : lookupKV (e :: rest) e.1 = some e.2 := by
      simp [lookupKV]
    rw [hself]
    rfl

theorem inflow_ext (g : MapGeometry) (q : TilePos)
    (l1 l2 : List (TilePos × ℚ)) (h1 : (keysOf l1).Nodup)
    (h2 : (keysOf l2).Nodup)
    (h : ∀ p, (lookupKV l1 p).getD 0 = (lookupKV l2 p).getD 0) :
    inflow g l1 q = inflow g l2 q := by
  have hS1 : ∀ p ∈ keysOf l1, p ∈ (keysOf l1).toFinset ∪ (keysOf l2).toFinset := by
    intro p hp
    exact Finset.mem_union_left _ (List.mem_toFinset.2 hp)
  have hS2 : ∀ p ∈ keysOf l2, p ∈ (keysOf l1).toFinset ∪ (keysOf l2).toFinset := by
    intro p hp
    exact Finset.mem_union_right _ (List.mem_toFinset.2 hp)
  rw [inflow_eq_finset_sum g q l1 h1 _ hS1, inflow_eq_finset_sum g q l2 h2 _ hS2]
  exact Finset.sum_congr rfl (fun p _ => by rw [h p])

theorem inflow_eq_zero_of_get_zero (g : MapGeometry) (q : TilePos)
    (m : SignalMap) (hnd : (keysOf m.entries).Nodup)
    (h0 : ∀ p, m.get p = 0) : inflow g m.entries q = 0 := by
  unfold inflow
  apply List.sum_eq_zero
  intro x hx
  simp only [List.mem_map] at hx
  obtain ⟨e, he, rfl⟩ := hx
  have hz : e.2 = 0 := by
    have hl : lookupKV m.entries e.1 = some e.2 :=
      lookupKV_eq_some_of_mem _ e hnd he
    have hg := h0 e.1
    unfold SignalMap.get at hg
    rw [hl] at hg
    simpa using hg
  rw [hz]
  ring

/-- C5: the diffusion pass is a pure function of the pre-diffusion field:
whenever two registry representations carry the same queryable field (in
particular, whenever they enumerate the same signal types or the tiles of a
map in different orders), one diffusion pass yields the same queryable field;
every staged amount is computed from pre-diffusion strengths only, never from
a strength already updated in the same pass. -/
theorem diffuse_signals_pure (g : MapGeometry) (r1 r2 : Signals)
    (hw1 : r1.WFKeys) (hw2 : r2.WFKeys)
    (hn1 : r1.Nonneg) (hn2 : r2.Nonneg)
    (h : ∀ t p, r1.get t p = r2.get t p) :
    ∀ t p, (diffuse_signals g r1).get t p = (diffuse_signals g r2).get t p := by
  intro t q
  rw [diffuse_signals_get g r1 t q hn1, diffuse_signals_get g r2 t q hn2]
  cases hl1 : lookupKV r1.maps t with
  | none =>
    cases hl2 : lookupKV r2.maps t with
    | none => rfl
    | some m2 =>
      have hm2 : ∀ p, m2.get p = 0 := by
        intro p
        have hp := h t p
        rw [Signals.get_eq_zero_of_lookup_none r1 t p hl1,
          Signals.get_eq_of_lookup r2 t p m2 hl2] at hp
        exact hp.symm
      have h0 : inflow g m2.entries q = 0 :=
        inflow_eq_zero_of_get_zero g q m2
          (hw2 (t, m2) (mem_of_lookupKV r2.maps t m2 hl2)) hm2
      show (0 : ℚ)
        = ssub (m2.get q) (inflow g m2.entries q) + inflow g m2.entries q
      rw [h0, hm2 q]
      simp [ssub]
  | some m1 =>
    cases hl2 : lookupKV r2.maps t with
    | none =>
      have hm1 : ∀ p, m1.get p = 0 := by
        intro p
        have hp := h t p
        rw [Signals.get_eq_zero_of_lookup_none r2 t p hl2,
          Signals.get_eq_of_lookup r1 t p m1 hl1] at hp
        exact hp
      have h0 : inflow g m1.entries q = 0 :=
        inflow_eq_zero_of_get_zero g q m1
          (hw1 (t, m1) (mem_of_lookupKV r1.maps t m1 hl1)) hm1
      show ssub (m1.get q) (inflow g m1.entries q) + inflow g m1.entries q
        = (0 : ℚ)
      rw [h0, hm1 q]
      simp [ssub]
    | some m2 =>
      have hg : ∀ p, m1.get p = m2.get p := by
        intro p
        have hp := h t p
        rw [Signals.get_eq_of_lookup r1 t p m1 hl1,
          Signals.get_eq_of_lookup r2 t p m2 hl2] at hp
        exact hp
      have hinf : inflow g m1.entries q = inflow g m2.entries q :=
        inflow_ext g q m1.entries m2.entries
          (hw1 (t, m1) (mem_of_lookupKV r1.maps t m1 hl1))
          (hw2 (t, m2) (mem_of_lookupKV r2.maps t m2 hl2))
          (fun p => hg p)
      show ssub (m1.get q) (inflow g m1.entries q) + inflow g m1.entries q
        = ssub (m2.get q) (inflow g m2.entries q) + inflow g m2.entries q
      rw [hg q, hinf]

/-- Witness for C5: the same concrete field enumerated in two different type
orders diffuses to the same queryable value. -/
theorem diffuse_signals_pure_witness :
    (diffuse_signals gEx rOrd1).get (SignalType.push itemX) tB
      = (diffuse_signals gEx rOrd2).get (SignalType.push itemX) tB :=
  diffuse_signals_pure gEx rOrd1 rOrd2
    (by
      intro e he
      simp only [rOrd1, List.mem_cons, List.not_mem_nil, or_false] at he
      rcases he with rfl | rfl <;> simp [keysOf])
    (by
      intro e he
      simp only [rOrd2, List.mem_cons, List.not_mem_nil, or_false] at he
      rcases he with rfl | rfl <;> simp [keysOf])
    (by
      intro e he
      simp only [rOrd1, List.mem_cons, List.not_mem_nil, or_false] at he
      rcases he with rfl | rfl <;>
        (intro en hen
         simp only [List.mem_singleton] at hen
         subst hen
         norm_num))
    (by
      intro e he
      simp only [rOrd2, List.mem_cons, List.not_mem_nil, or_false] at he
      rcases he with rfl | rfl <;>
        (intro en hen
         simp only [List.mem_singleton] at hen
         subst hen
         norm_num))
    (by
      intro t p
      unfold Signals.get
      by_cases h1 : t = SignalType.push itemX
      · subst h1
        simp +decide [rOrd1, rOrd2, lookupKV]
      · by_cases h2 : t = SignalType.pull itemX
        · subst h2
          simp +decide [rOrd1, rOrd2, lookupKV]
        · simp [rOrd1, rOrd2, lookupKV, Ne.symm h1, Ne.symm h2])
    (SignalType.push itemX) tB

theorem nonneg_add_signal (s : Signals) (t : SignalType) (p : TilePos) (v : ℚ)
    (hs : s.Nonneg) (hv : 0 ≤ v) : (s.add_signal t p v).Nonneg := by
  unfold Signals.add_signal
  cases hl : lookupKV s.maps t with
  | some m =>
    intro e he
    rcases mem_insertKV s.maps t (m.add_signal p v) e he with h1 | h1
    · rw [h1]
      exact entriesNonneg_add_signal m p v
        (hs (t, m) (mem_of_lookupKV s.maps t m hl)) hv
    · exact hs e h1
  | none =>
    intro e he
    rcases mem_insertKV s.maps t ((SignalMap.mk []).add_signal p v) e he with
      h1 | h1
    · rw [h1]
      exact entriesNonneg_add_signal ⟨[]⟩ p v
        (fun en hen => absurd hen (List.not_mem_nil en)) hv
    · exact hs e h1

theorem nonneg_subtract_signal (s : Signals) (t : SignalType) (p : TilePos)
    (v : ℚ) (hs : s.Nonneg) : (s.subtract_signal t p v).Nonneg := by
  unfold Signals.subtract_signal
  cases hl : lookupKV s.maps t with
  | some m =>
    intro e he
    rcases mem_insertKV s.maps t (m.subtract_signal p v) e he with h1 | h1
    · rw [h1]
      exact entriesNonneg_subtract_signal m p v
        (hs (t, m) (mem_of_lookupKV s.maps t m hl))
    · exact hs e h1
  | none => exact hs

theorem nonneg_emit_one (p : TilePos) :
    ∀ (sigs : List (SignalType × ℚ)) (s : Signals), s.Nonneg →
      (∀ sig ∈ sigs, 0 ≤ sig.2) →
      (sigs.foldl (fun acc2 sig => acc2.add_signal sig.1 p sig.2) s).Nonneg := by
  intro sigs
  induction sigs with
  | nil =>
    intro s hs _
    exact hs
  | cons sig rest ih =>
    intro s hs hw
    rw [List.foldl_cons]
    exact ih _
      (nonneg_add_signal s sig.1 p sig.2 hs (hw sig (List.mem_cons_self sig rest)))
      (fun x hx => hw x (List.mem_cons_of_mem sig hx))

theorem nonneg_emit :
    ∀ (emitters : List (TilePos × List (SignalType × ℚ))) (s : Signals),
      s.Nonneg → (∀ e ∈ emitters, ∀ sig ∈ e.2, 0 ≤ sig.2) →
      (emit_signals s emitters).Nonneg := by
  intro emitters
  induction emitters with
  | nil =>
    intro s hs _
    exact hs
  | cons e rest ih =>
    intro s hs hw
    have h1 := nonneg_emit_one e.1 e.2 s hs (hw e (List.mem_cons_self e rest))
    exact ih _ h1 (fun x hx => hw x (List.mem_cons_of_mem e hx))

theorem nonneg_degrade (s : Signals) (hs : s.Nonneg) :
    (degrade_signals s).Nonneg := by
  intro e he
  simp only [degrade_signals, List.mem_map] at he
  obtain ⟨a, ha, rfl⟩ := he
  intro en hen
  simp only [List.mem_map] at hen
  obtain ⟨b, hb, rfl⟩ := hen
  have hba := hs a ha b hb
  have hq : (0 : ℚ) ≤ 1 - DEGRADATION_FRACTION := by
    norm_num [DEGRADATION_FRACTION]
  exact mul_nonneg hba hq

theorem entriesNonneg_foldl_add_const (a : ℚ) (ha : 0 ≤ a) :
    ∀ (L : List TilePos) (m : SignalMap), m.EntriesNonneg →
      (L.foldl (fun mm n => mm.add_signal n a) m).EntriesNonneg := by
  intro L
  induction L with
  | nil =>
    intro m h
    exact h
  | cons n L ih =>
    intro m h
    exact ih _ (entriesNonneg_add_signal _ _ _ h ha)

theorem entriesNonneg_stage_addition (g : MapGeometry) (m : SignalMap)
    (hm : m.EntriesNonneg) : (stageMaps g m).2.EntriesNonneg := by
  rw [stageMaps_snd]
  suffices h : ∀ (l : List (TilePos × ℚ)), (∀ e ∈ l, 0 ≤ e.2) →
      ∀ (am : SignalMap), am.EntriesNonneg →
      ((l.foldl (fun am e => (g.empty_neighbors e.1).foldl
        (fun mm n => mm.add_signal n (e.2 * DIFFUSION_FRACTION)) am)
        am)).EntriesNonneg by
    exact h m.entries hm ⟨[]⟩ (fun en hen => absurd hen (List.not_mem_nil en))
  intro l
  induction l with
  | nil =>
    intro _ am h
    exact h
  | cons e rest ih =>
    intro hl am ham
    refine ih (fun x hx => hl x (List.mem_cons_of_mem e hx)) _ ?_
    refine entriesNonneg_foldl_add_const _ ?_ _ _ ham
    exact mul_nonneg (hl e (List.mem_cons_self e rest))
      (by norm_num [DIFFUSION_FRACTION])

theorem entriesNonneg_foldl_sub :
    ∀ (l : List (TilePos × ℚ)) (m : SignalMap), m.EntriesNonneg →
      (l.foldl (fun acc e => acc.subtract_signal e.1 e.2) m).EntriesNonneg := by
  intro l
  induction l with
  | nil =>
    intro m h
    exact h
  | cons e rest ih =>
    intro m h
    exact ih _ (entriesNonneg_subtract_signal _ _ _ h)

theorem entriesNonneg_foldl_add :
    ∀ (l : List (TilePos × ℚ)), (∀ e ∈ l, 0 ≤ e.2) →
      ∀ (m : SignalMap), m.EntriesNonneg →
      (l.foldl (fun acc e => acc.add_signal e.1 e.2) m).EntriesNonneg := by
  intro l
  induction l with
  | nil =>
    intro _ m h
    exact h
  | cons e rest ih =>
    intro hl m h
    exact ih (fun x hx => hl x (List.mem_cons_of_mem e hx)) _
      (entriesNonneg_add_signal _ _ _ h (hl e (List.mem_cons_self e rest)))

theorem nonneg_diffuse (g : MapGeometry) (s : Signals) (hs : s.Nonneg) :
    (diffuse_signals g s).Nonneg := by
  intro e he
  simp only [diffuse_signals, List.mem_map] at he
  obtain ⟨a, ha, rfl⟩ := he
  have hm : a.2.EntriesNonneg := hs a ha
  have hst : (stageMaps g a.2).2.EntriesNonneg :=
    entriesNonneg_stage_addition g a.2 hm
  show (commitMaps a.2 (stageMaps g a.2)).EntriesNonneg
  unfold commitMaps
  exact entriesNonneg_foldl_add _ hst _ (entriesNonneg_foldl_sub _ _ hm)

theorem get_nonneg (s : Signals) (hs : s.Nonneg) (t : SignalType)
    (p : TilePos) : 0 ≤ s.get t p := by
  unfold Signals.get
  cases hl : lookupKV s.maps t with
  | none => simp
  | some m =>
    exact get_nonneg_of_entries m
      (hs (t, m) (mem_of_lookupKV s.maps t m hl)) p

/-- C2: starting from any registry whose stored strengths are all nonnegative
(the default registry is empty, hence qualifies), after any sequence of
add_signal, subtract_signal, emission, diffusion and decay operations whose
supplied strengths are nonnegative (every SignalStrength is, since
SignalStrength::new clamps at zero), every strength queryable from the
registry is nonnegative: no operation produces a negative value. -/
theorem ops_preserve_nonneg (s : Signals) (hs : s.Nonneg) (ops : List Op)
    (hops : ∀ o ∈ ops, o.WF) :
    ∀ t p, 0 ≤ (applyOps s ops).get t p := by
  have key : ∀ (l : List Op), (∀ o ∈ l, o.WF) → ∀ (r : Signals), r.Nonneg →
      (applyOps r l).Nonneg := by
    intro l
    induction l with
    | nil =>
      intro _ r hr
      exact hr
    | cons o rest ih =>
      intro hl r hr
      have ho := hl o (List.mem_cons_self o rest)
      have hnext : (applyOp r o).Nonneg := by
        cases o with
        | add t p v => exact nonneg_add_signal r t p v hr ho
        | sub t p v => exact nonneg_subtract_signal r t p v hr
        | emit es => exact nonneg_emit es r hr ho
        | diffuse g => exact nonneg_diffuse g r hr
        | degrade => exact nonneg_degrade r hr
      exact ih (fun o' ho' => hl o' (List.mem_cons_of_mem o ho')) _ hnext
  intro t p
  exact get_nonneg _ (key ops hops s hs) t p

/-- Witness for C2 on a short concrete operation sequence from the empty
registry. -/
theorem ops_preserve_nonneg_witness :
    0 ≤ (applyOps ⟨[]⟩ [Op.add (SignalType.push itemX) tA 2,
      Op.sub (SignalType.push itemX) tA 5, Op.diffuse gEx,
      Op.degrade]).get (SignalType.push itemX) tA :=
  ops_preserve_nonneg ⟨[]⟩ (fun e he => absurd he (List.not_mem_nil e))
    _ (by
      intro o ho
      simp only [List.mem_cons, List.not_mem_nil, or_false] at ho
      rcases ho with rfl | rfl | rfl | rfl <;> norm_num [Op.WF])
    (SignalType.push itemX) tA

end Emergence
